import Mathlib

/-!
Verification of the layout-reconstruction core of a browser-side PDF-to-Word
converter.  The embedding below follows the TypeScript source of
`layoutParser` (types `DocElement`, functions `isHeadingText`,
`mergeColumnBuckets`, `nearestBucket`, `toPositioned`, `groupIntoLines`,
`segmentIntoBlocks`, `tryExtractTable`, `tableBlockToElement`,
`paraBlockToElements`, `buildDocElements`, `elementsToText`) and the
page-assembly loop of `processPdfClientSide` in `ocrProcessor`.

Modelling conventions:
* JavaScript `number` coordinates are modelled as rationals (`ℚ`).
* JavaScript's stable `Array.prototype.sort` with a key comparator is
  modelled by `List.insertionSort`, which is stable and sorts by the same
  non-strict key order.
* JavaScript `String.prototype.trim` and `split("\n")` are modelled by
  character-level functions `jsTrim` and `splitNewlines`.
* Imperative `for`-loops that push onto an array are modelled by structural
  recursion producing the same list.  The `while` loop of
  `segmentIntoBlocks` advances its index by at least one per iteration, so
  it runs at most `lines.length` iterations; it is modelled with that
  iteration bound as structural fuel.
* The table-detection thresholds `MIN_TABLE_ROWS` / `MIN_TABLE_COLS` are
  intentionally exposed as tuning configuration by the design, so the
  segmentation functions are parametrised by them; the unparametrised
  functions of the source are the instantiations at the default values.
-/

namespace LayoutParser

/-- Items within this many PDF units of the same Y are on the same line. -/
def ROW_TOLERANCE : ℚ := 4

/-- Column X-positions within this many PDF units are the same column. -/
def COL_TOLERANCE : ℚ := 18

/-- A table must have at least this many columns. -/
def MIN_TABLE_COLS : ℕ := 2

/-- A table must span at least this many rows. -/
def MIN_TABLE_ROWS : ℕ := 2

/-- Maximum length for an ALL-CAPS line to be a heading. -/
def HEADING_MAX_LEN : ℕ := 80

/-- Strip leading and trailing whitespace from a character list. -/
def trimChars (l : List Char) : List Char :=
  ((l.dropWhile Char.isWhitespace).reverse.dropWhile Char.isWhitespace).reverse

/-- Model of JavaScript `String.prototype.trim`. -/
def jsTrim (s : String) : String :=
  ⟨trimChars s.data⟩

/-- Loop of `splitNewlines`: accumulate the current chunk (reversed) and close
it at each newline character. -/
def splitNewlinesGo (cur : List Char) : List Char → List String
  | [] => [⟨cur.reverse⟩]
  | c :: rest =>
    if c = '\n' then ⟨cur.reverse⟩ :: splitNewlinesGo [] rest
    else splitNewlinesGo (c :: cur) rest

/-- Model of JavaScript `split("\n")`: the empty string yields `[""]`. -/
def splitNewlines (s : String) : List String :=
  splitNewlinesGo [] s.data

/-- The PDF transform `[scaleX, skewX, skewY, scaleY, translateX, translateY]`.
The code reads only `transform[4]` (`translateX`) and `transform[5]`
(`translateY`). -/
structure Transform6 where
  scaleX : ℚ
  skewX : ℚ
  skewY : ℚ
  scaleY : ℚ
  translateX : ℚ
  translateY : ℚ
deriving DecidableEq, Repr

/-- A raw extractor item: either a `TextMarkedContent` marker (carries a `type`
property and is discarded) or a pdfjs `TextItem` glyph run. -/
inductive RawItem where
  | marker
  | textItem (str : String) (transform : Transform6) (width : ℚ) (height : ℚ)
      (fontName : String)
deriving DecidableEq, Repr

/-- A normalized glyph run with top-down coordinates (`PositionedItem`). -/
structure PositionedItem where
  str : String
  x : ℚ
  y : ℚ
  width : ℚ
  height : ℚ
  fontName : String
deriving DecidableEq, Repr

/-- A horizontal line: a representative `y` plus the items on the line
(`LineGroup`). -/
structure LineGroup where
  y : ℚ
  items : List PositionedItem
deriving DecidableEq, Repr

/-- A block of consecutive lines, classified as table or paragraph run. -/
inductive Block where
  | table (lines : List LineGroup)
  | para (lines : List LineGroup)
deriving DecidableEq, Repr

/-- The lines carried by a block. -/
def Block.lines : Block → List LineGroup
  | .table l => l
  | .para l => l

/-- The output sum type `DocElement`. -/
inductive DocElement where
  | paragraph (text : String) (isHeading : Bool)
  | table (rows : List (List String)) (colCount : ℕ)
  | pageBreak
deriving DecidableEq, Repr

/-- The error kind named by the specification; the source code never actually
throws it. -/
inductive CoreError where
  | malformedInput
deriving DecidableEq, Repr

/-- Key order for the comparator `(a, b) => a.y - b.y`. -/
def leY (a b : PositionedItem) : Prop := a.y ≤ b.y

/-- Key order for the comparator `(a, b) => a.x - b.x`. -/
def leX (a b : PositionedItem) : Prop := a.x ≤ b.x

instance : DecidableRel leY := fun a b => inferInstanceAs (Decidable (a.y ≤ b.y))

instance : DecidableRel leX := fun a b => inferInstanceAs (Decidable (a.x ≤ b.x))

instance : IsTotal PositionedItem leY := ⟨fun a b => le_total a.y b.y⟩

instance : IsTrans PositionedItem leY := ⟨fun _ _ _ hab hbc => le_trans hab hbc⟩

instance : IsTotal PositionedItem leX := ⟨fun a b => le_total a.x b.x⟩

instance : IsTrans PositionedItem leX := ⟨fun _ _ _ hab hbc => le_trans hab hbc⟩

/-- Uppercase a string character by character, as the locale-independent
ASCII reading of JavaScript `String.prototype.toUpperCase`. -/
def toUpperString (s : String) : String :=
  ⟨s.data.map Char.toUpper⟩

/-- Detect whether a text string looks like a heading (`isHeadingText`):
trimmed length strictly between `0` and `HEADING_MAX_LEN`, equal to its own
upper-casing, and containing at least one `A`–`Z` character (the regex
`/[A-Z]/`). -/
def isHeadingText (text : String) : Bool :=
  let t := jsTrim text
  decide (0 < t.length) && decide (t.length < HEADING_MAX_LEN) &&
    (t == toUpperString t) &&
    t.data.any (fun c => decide ('A' ≤ c) && decide (c ≤ 'Z'))

/-- Scan of sorted x-values: emit a new anchor whenever the next value exceeds
the last anchor by more than `COL_TOLERANCE` (the push-loop of
`mergeColumnBuckets` after its first push). -/
def mcbGo (last : ℚ) : List ℚ → List ℚ
  | [] => []
  | x :: rest =>
    if COL_TOLERANCE < x - last then x :: mcbGo x rest else mcbGo last rest

/-- Merge x-values into sorted distinct column anchors (`mergeColumnBuckets`):
sort ascending, then start a new bucket whenever the next value is more than
`COL_TOLERANCE` above the last anchor.  The first sorted value is always
pushed (the `last === undefined` case of the source loop). -/
def mergeColumnBuckets (xValues : List ℚ) : List ℚ :=
  match xValues.insertionSort (· ≤ ·) with
  | [] => []
  | x :: rest => x :: mcbGo x rest

/-- Loop of `nearestBucket`: scan buckets from index `i`, keeping the index
`best` of the smallest distance seen (`bestDist`); strict `<` keeps the lowest
index on ties. -/
def nearestBucketAux (x : ℚ) : List ℚ → ℕ → ℕ → ℚ → ℕ
  | [], _, best, _ => best
  | b :: rest, i, best, bestDist =>
    if |x - b| < bestDist then nearestBucketAux x rest (i + 1) i (|x - b|)
    else nearestBucketAux x rest (i + 1) best bestDist

/-- Index of the nearest column bucket for a given x (`nearestBucket`).  On an
empty bucket list the source's loop body never runs and `0` is returned. -/
def nearestBucket (x : ℚ) (buckets : List ℚ) : ℕ :=
  match buckets with
  | [] => 0
  | b :: rest => nearestBucketAux x rest 1 0 (|x - b|)

/-- Convert raw extractor items to positioned items (`toPositioned`): markers
and whitespace-only runs are skipped; coordinates are flipped to top-down via
`y = pageHeight - transform[5] - |height|`. -/
def toPositioned (items : List RawItem) (pageHeight : ℚ) : List PositionedItem :=
  match items with
  | [] => []
  | RawItem.marker :: rest => toPositioned rest pageHeight
  | RawItem.textItem str tf width height fontName :: rest =>
    if jsTrim str = "" then toPositioned rest pageHeight
    else
      { str := str, x := tf.translateX, y := pageHeight - tf.translateY - |height|,
        width := width, height := |height|, fontName := fontName } ::
        toPositioned rest pageHeight

/-- Sort the items of a line left-to-right (the `sort((a, b) => a.x - b.x)`
applied when a line is closed). -/
def sortByX (l : List PositionedItem) : List PositionedItem :=
  l.insertionSort leX

/-- Loop of `groupIntoLines`: `currentY` is the y of the first run of the
current line; a run joins while `|run.y - currentY| ≤ ROW_TOLERANCE`, else the
current line is closed (items sorted by x) and a new one opens. -/
def groupGo (currentY : ℚ) (currentLine : List PositionedItem) :
    List PositionedItem → List LineGroup
  | [] => [{ y := currentY, items := sortByX currentLine }]
  | item :: rest =>
    if |item.y - currentY| ≤ ROW_TOLERANCE then
      groupGo currentY (currentLine ++ [item]) rest
    else
      { y := currentY, items := sortByX currentLine } :: groupGo item.y [item] rest

/-- Group positioned items into horizontal lines (`groupIntoLines`): sort
top-to-bottom by y, then scan with `groupGo`. -/
def groupIntoLines (items : List PositionedItem) : List LineGroup :=
  match items.insertionSort leY with
  | [] => []
  | first :: rest => groupGo first.y [first] rest

/-- Loop of `tryExtractTable`, parametrised by `MIN_TABLE_COLS`: starting from
the running bucket set `colBuckets`, greedily accept lines.  A line with fewer
than `minCols` items stops; the first accepted line initialises the buckets
(stopping if they have fewer than `minCols` anchors); later lines must have at
least `minCols` items within `COL_TOLERANCE` of an existing bucket, and their
x-values are merged into the buckets. -/
def tryExtractTableGoP (minCols : ℕ) (colBuckets : List ℚ) :
    List LineGroup → List LineGroup
  | [] => []
  | line :: rest =>
    if line.items.length < minCols then []
    else
      let lineXs := line.items.map (fun it => it.x)
      if colBuckets.isEmpty then
        let cb := mergeColumnBuckets lineXs
        if cb.length < minCols then []
        else line :: tryExtractTableGoP minCols cb rest
      else
        let matched := lineXs.filter
          (fun x => colBuckets.any (fun b => decide (|x - b| ≤ COL_TOLERANCE)))
        if matched.length < minCols then []
        else
          line :: tryExtractTableGoP minCols
            (mergeColumnBuckets (colBuckets ++ lineXs)) rest

/-- Parametrised `tryExtractTable` applied to the suffix starting at `start`:
returns the accepted lines if at least `minRows` qualify, else `none`. -/
def tryExtractTableP (minRows minCols : ℕ) (lines : List LineGroup) :
    Option (List LineGroup) :=
  let t := tryExtractTableGoP minCols [] lines
  if minRows ≤ t.length then some t else none

/-- Loop of `segmentIntoBlocks` with an explicit iteration bound as fuel.  At
each position try to extract a table; on success emit a `TableBlock` and
advance past its lines, else emit a singleton `ParaBlock` and advance by one.
The source loop advances `i` by `tableLines.length`, which is positive
whenever `minRows ≥ 1` (always the case here: the source fixes
`MIN_TABLE_ROWS = 2`); the `max 1` only makes the recursion total at the
degenerate `minRows = 0`, where the source loop would not terminate. -/
def segmentAux (minRows minCols : ℕ) : ℕ → List LineGroup → List Block
  | 0, _ => []
  | _ + 1, [] => []
  | fuel + 1, line :: rest =>
    match tryExtractTableP minRows minCols (line :: rest) with
    | some t =>
      Block.table t ::
        segmentAux minRows minCols fuel ((line :: rest).drop (max 1 t.length))
    | none => Block.para [line] :: segmentAux minRows minCols fuel rest

/-- Parametrised `segmentIntoBlocks`: the loop runs at most one iteration per
input line, so `lines.length` bounds the iteration count. -/
def segmentIntoBlocksP (minRows minCols : ℕ) (lines : List LineGroup) :
    List Block :=
  segmentAux minRows minCols lines.length lines

/-- The source's `tryExtractTable` at the default thresholds. -/
def tryExtractTable (lines : List LineGroup) : Option (List LineGroup) :=
  tryExtractTableP MIN_TABLE_ROWS MIN_TABLE_COLS lines

/-- The source's `segmentIntoBlocks` at the default thresholds. -/
def segmentIntoBlocks (lines : List LineGroup) : List Block :=
  segmentIntoBlocksP MIN_TABLE_ROWS MIN_TABLE_COLS lines

/-- Fill one table row (`tableBlockToElement` inner loop): start from
`colCount` empty cells; each item is appended to the cell of its nearest
bucket, space-separated if the cell is already non-empty. -/
def fillRow (colBuckets : List ℚ) (colCount : ℕ) (items : List PositionedItem) :
    List String :=
  items.foldl
    (fun cells item =>
      let col := nearestBucket item.x colBuckets
      let old := cells.getD col ""
      cells.set col (if old = "" then item.str else old ++ " " ++ item.str))
    (List.replicate colCount "")

/-- Convert a table block to a `Table` element (`tableBlockToElement`):
recompute the column buckets from the union of all x-values of the block, then
assign each item of each line to its nearest bucket. -/
def tableBlockToElement (blockLines : List LineGroup) : DocElement :=
  let allXs := blockLines.flatMap (fun l => l.items.map (fun it => it.x))
  let colBuckets := mergeColumnBuckets allXs
  let colCount := colBuckets.length
  DocElement.table
    (blockLines.map (fun line => fillRow colBuckets colCount line.items)) colCount

/-- Convert a paragraph block to `Paragraph` elements (`paraBlockToElements`):
one paragraph per line, text joined by single spaces and trimmed, heading flag
from `isHeadingText`. -/
def paraBlockToElements (blockLines : List LineGroup) : List DocElement :=
  blockLines.map (fun line =>
    let text := jsTrim (String.intercalate " " (line.items.map (fun it => it.str)))
    DocElement.paragraph text (isHeadingText text))

/-- The per-page core pipeline (`buildDocElements`). -/
def buildDocElements (items : List RawItem) (pageHeight : ℚ) : List DocElement :=
  let positioned := toPositioned items pageHeight
  if positioned.isEmpty then []
  else
    let lines := groupIntoLines positioned
    let blocks := segmentIntoBlocks lines
    blocks.flatMap (fun block =>
      match block with
      | Block.table l => [tableBlockToElement l]
      | Block.para l => paraBlockToElements l)

/-- The core pipeline with its error surface made explicit.  The source
contains no `throw` statement on any path, so every input produces a normal
result; in particular no `CoreError.malformedInput` is ever raised. -/
def buildDocElementsE (items : List RawItem) (pageHeight : ℚ) :
    Except CoreError (List DocElement) :=
  Except.ok (buildDocElements items pageHeight)

/-- Plain-text serialization (`elementsToText`). -/
def elementsToText (elements : List DocElement) : String :=
  String.intercalate "\n"
    (elements.map (fun el =>
      match el with
      | DocElement.pageBreak => "--- Page Break ---"
      | DocElement.paragraph text _ => text
      | DocElement.table rows _ =>
        String.intercalate "\n" (rows.map (fun row => String.intercalate "\t" row))))

/-- Concrete inputs used by witnesses: an identity-scale transform at a given
translation. -/
def mkTransform (tx ty : ℚ) : Transform6 :=
  { scaleX := 1, skewX := 0, skewY := 0, scaleY := 1, translateX := tx, translateY := ty }

/-- The four glyph runs of the specification's scenario S1 (a 2-by-2 grid), in
bottom-up PDF coordinates for a page of height 100. -/
def sampleTableItems : List RawItem :=
  [RawItem.textItem "A" (mkTransform 50 80) 10 10 "F",
   RawItem.textItem "B" (mkTransform 150 80) 10 10 "F",
   RawItem.textItem "C" (mkTransform 50 60) 10 10 "F",
   RawItem.textItem "D" (mkTransform 150 60) 10 10 "F"]

/-- Item constructor used by concrete probe inputs. -/
def mkItem (s : String) (x y : ℚ) : PositionedItem :=
  { str := s, x := x, y := y, width := 10, height := 10, fontName := "F" }

/-- First probe line: two items whose own buckets are 40 apart. -/
def probeLine0 : LineGroup := ⟨0, [mkItem "a" 97 0, mkItem "b" 137 0]⟩

/-- Second probe line: three items aligned loosely with the first line. -/
def probeLine1 : LineGroup := ⟨10, [mkItem "c" 100 10, mkItem "d" 140 10, mkItem "e" 180 10]⟩

/-- Third probe line: three items within 16 units of the second line's own
buckets but more than 18 units from the merged buckets of the first two
lines. -/
def probeLine2 : LineGroup := ⟨20, [mkItem "f" 116 20, mkItem "g" 156 20, mkItem "h" 196 20]⟩

/-- The probe input of the threshold counterexample. -/
def probeLines : List LineGroup := [probeLine0, probeLine1, probeLine2]

/-- A clean 3-row, 2-column aligned grid used by the C6 witness. -/
def gridLines : List LineGroup :=
  [⟨0, [mkItem "a" 0 0, mkItem "b" 100 0]⟩,
   ⟨10, [mkItem "c" 0 10, mkItem "d" 100 10]⟩,
   ⟨20, [mkItem "e" 0 20, mkItem "f" 100 20]⟩]

end LayoutParser

namespace OcrProcessor

open LayoutParser

/-- Abstract per-page input of the assembly loop in `processPdfClientSide`: a
page is classified digital (layout parsing of its raw items) or scanned (OCR
text, bypassing geometry). -/
inductive PageData where
  | digital (items : List RawItem) (pageHeight : ℚ)
  | scanned (ocrText : String)

/-- Convert one trimmed OCR line to a paragraph element, with the heading test
inlined exactly as in `processPdfClientSide`. -/
def ocrLineElement (line : String) : DocElement :=
  DocElement.paragraph line
    (decide (0 < line.length) && decide (line.length < 80) &&
      (line == toUpperString line) &&
      line.data.any (fun c => decide ('A' ≤ c) && decide (c ≤ 'Z')))

/-- OCR branch of the loop: split the OCR text on newlines, trim each line,
drop empty lines, and emit one paragraph per remaining line. -/
def ocrParagraphs (ocrText : String) : List DocElement :=
  ((((splitNewlines ocrText).map jsTrim).filter (fun l => l ≠ "")).map
    ocrLineElement)

/-- Elements contributed by one page inside the loop body. -/
def pageElements (p : PageData) : List DocElement :=
  match p with
  | PageData.digital items pageHeight => buildDocElements items pageHeight
  | PageData.scanned ocrText => ocrParagraphs ocrText

/-- Loop body of `processPdfClientSide` for pages after the first: each
iteration first pushes a `pageBreak` sentinel, then the page's elements. -/
def assembleGo : List PageData → List DocElement
  | [] => []
  | p :: rest => (DocElement.pageBreak :: pageElements p) ++ assembleGo rest

/-- The assembly of `processPdfClientSide`: the first page contributes its
elements with no preceding sentinel; every later page is preceded by one
`pageBreak`. -/
def assemblePages : List PageData → List DocElement
  | [] => []
  | p :: rest => pageElements p ++ assembleGo rest

/-- Two scanned pages with non-empty OCR text, used by witnesses. -/
def samplePagesAB : List PageData :=
  [PageData.scanned "a", PageData.scanned "b"]

/-- Two scanned pages whose OCR text is empty: the degenerate input of the
page-break placement counterexample. -/
def samplePagesEmptyOcr : List PageData :=
  [PageData.scanned "", PageData.scanned ""]

end OcrProcessor

/-! ## Helper lemmas -/

namespace LayoutParser

theorem toPositioned_eq_filterMap (items : List RawItem) (H : ℚ) :
    toPositioned items H = items.filterMap (fun raw =>
      match raw with
      | RawItem.marker => none
      | RawItem.textItem str tf w h fn =>
        if jsTrim str = "" then none
        else some { str := str, x := tf.translateX, y := H - tf.translateY - |h|,
                    width := w, height := |h|, fontName := fn }) := by
  induction items with
  | nil => rfl
  | cons raw rest ih =>
    cases raw with
    | marker => simpa [toPositioned] using ih
    | textItem str tf w h fn =>
      by_cases hs : jsTrim str = "" <;> simp [toPositioned, hs, ih]

theorem buildDocElements_nil (H : ℚ) : buildDocElements [] H = [] := rfl

end LayoutParser

namespace LayoutParser

theorem mem_buildDocElements_shape :
    ∀ (items : List RawItem) (H : ℚ) (el : DocElement),
      el ∈ buildDocElements items H →
        (∃ t ih, el = DocElement.paragraph t ih) ∨
        (∃ r c, el = DocElement.table r c) := by
  intro items H el hel
  simp only [buildDocElements] at hel
  split at hel
  · simp at hel
  · simp only [List.mem_flatMap] at hel
    obtain ⟨block, _, hel⟩ := hel
    cases block with
    | table l =>
      simp only [List.mem_singleton] at hel
      subst hel
      exact Or.inr ⟨_, _, rfl⟩
    | para l =>
      simp only [paraBlockToElements, List.mem_map] at hel
      obtain ⟨line, _, hline⟩ := hel
      exact Or.inl ⟨_, _, hline.symm⟩

end LayoutParser

namespace OcrProcessor

open LayoutParser

theorem pageElements_ne_pageBreak :
    ∀ (p : PageData) (el : DocElement), el ∈ pageElements p →
      el ≠ DocElement.pageBreak := by
  intro p el hel
  cases p with
  | digital items H =>
    rcases mem_buildDocElements_shape items H el hel with ⟨t, ih, rfl⟩ | ⟨r, c, rfl⟩ <;>
      simp
  | scanned t =>
    simp only [pageElements, ocrParagraphs, List.mem_map] at hel
    obtain ⟨line, _, hline⟩ := hel
    simp [← hline, ocrLineElement]

end OcrProcessor

/-! ## Claims -/

namespace Claims

open LayoutParser OcrProcessor

/-- C7: `isHeadingText` classifies a string as a heading iff, after trimming,
its length is strictly between 0 and `HEADING_MAX_LEN` (80), it equals its own
upper-casing, and it contains at least one character in `A`–`Z`; in particular
`"INTRODUCTION"` is a heading while `"Introduction"` and `"123"` are not. -/
theorem c7_isHeadingText_spec :
    (∀ s : String,
      isHeadingText s = true ↔
        (0 < (jsTrim s).length ∧ (jsTrim s).length < HEADING_MAX_LEN ∧
          jsTrim s = toUpperString (jsTrim s) ∧
          ∃ c ∈ (jsTrim s).data, 'A' ≤ c ∧ c ≤ 'Z')) ∧
    isHeadingText "INTRODUCTION" = true ∧
    isHeadingText "Introduction" = false ∧
    isHeadingText "123" = false := by
  refine ⟨fun s => ?_, by decide, by decide, by decide⟩
  simp [isHeadingText, List.any_eq_true, Bool.and_eq_true, decide_eq_true_iff,
    beq_iff_eq, and_assoc]

/-- C8: `elementsToText` joins per-element renderings with a newline, where a
paragraph renders as its text, a page break as the literal sentinel, and a
table as its tab-joined rows joined by newlines; the example list serializes
to `"a\n--- Page Break ---\nb"`. -/
theorem c8_elementsToText_spec :
    (∀ els : List DocElement,
      elementsToText els = String.intercalate "\n" (els.map (fun el =>
        match el with
        | DocElement.pageBreak => "--- Page Break ---"
        | DocElement.paragraph text _ => text
        | DocElement.table rows _ =>
          String.intercalate "\n" (rows.map (fun row => String.intercalate "\t" row))))) ∧
    elementsToText [DocElement.paragraph "a" false, DocElement.pageBreak,
      DocElement.paragraph "b" false] = "a\n--- Page Break ---\nb" := by
  exact ⟨fun els => rfl, by decide⟩

/-- C5: normalization drops every marker item and every run whose text trims
to empty, and each kept run becomes `x = transform[4]`,
`y = H - transform[5] - |height|`, `height = |height|`, with width, text and
font name preserved verbatim, in input order. -/
theorem c5_toPositioned_spec :
    ∀ (items : List RawItem) (H : ℚ),
      toPositioned items H = items.filterMap (fun raw =>
        match raw with
        | RawItem.marker => none
        | RawItem.textItem str tf w h fn =>
          if jsTrim str = "" then none
          else some { str := str, x := tf.translateX, y := H - tf.translateY - |h|,
                      width := w, height := |h|, fontName := fn }) :=
  toPositioned_eq_filterMap

/-- C4 counterexample: the claim says the core raises `MalformedInput`
exactly when the page height is not a positive (finite) number, but on the
non-positive page height `-1` the core succeeds instead of raising. -/
theorem c4_counterexample :
    ¬ (∀ (items : List RawItem) (H : ℚ),
        (∃ e, buildDocElementsE items H = Except.error e) ↔ ¬ 0 < H) := by
  intro h
  obtain ⟨e, he⟩ := (h [] (-1)).mpr (by norm_num)
  simp [buildDocElementsE] at he

/-- C4 amended: the core never raises any error: on every input, including a
non-positive page height, it returns a normal result, and empty input yields
empty output. -/
theorem c4_total :
    ∀ (items : List RawItem) (H : ℚ),
      buildDocElementsE items H = Except.ok (buildDocElements items H) ∧
      buildDocElements [] H = [] :=
  fun _ _ => ⟨rfl, rfl⟩

/-- C9: the per-page core emits only paragraph and table elements, never a
page break; page contributions in the assembly likewise never contain a page
break, so page breaks originate solely from the assembly loop's explicit
insertions. -/
theorem c9_no_pageBreak_from_core :
    (∀ (items : List RawItem) (H : ℚ) (el : DocElement),
      el ∈ buildDocElements items H →
        (∃ t ih, el = DocElement.paragraph t ih) ∨
        (∃ r c, el = DocElement.table r c)) ∧
    (∀ (p : PageData) (el : DocElement), el ∈ pageElements p →
      el ≠ DocElement.pageBreak) :=
  ⟨mem_buildDocElements_shape, pageElements_ne_pageBreak⟩

/-- C9 witness: the table element produced by the S1 sample input is covered
by the disjunction of `c9_no_pageBreak_from_core`. -/
theorem c9_witness :
    (∃ t ih, DocElement.table [["A", "B"], ["C", "D"]] 2 = DocElement.paragraph t ih) ∨
    (∃ r c, DocElement.table [["A", "B"], ["C", "D"]] 2 = DocElement.table r c) :=
  c9_no_pageBreak_from_core.1 sampleTableItems 100
    (DocElement.table [["A", "B"], ["C", "D"]] 2) (by with_unfolding_all decide)

end Claims

namespace LayoutParser

theorem groupGo_head (l : List PositionedItem) :
    ∀ (cy : ℚ) (cl : List PositionedItem),
      ∃ its rest, groupGo cy cl l = LineGroup.mk cy its :: rest := by
  induction l with
  | nil => exact fun cy cl => ⟨sortByX cl, [], rfl⟩
  | cons item rest ih =>
    intro cy cl
    by_cases h : |item.y - cy| ≤ ROW_TOLERANCE
    · simpa [groupGo, h] using ih cy (cl ++ [item])
    · exact ⟨sortByX cl, groupGo item.y [item] rest, by simp [groupGo, h]⟩

theorem groupGo_chain (l : List PositionedItem) :
    ∀ (cy : ℚ) (cl : List PositionedItem),
      l.Pairwise leY → (∀ z ∈ l, cy ≤ z.y) →
      List.Chain' (fun g1 g2 => g1.y < g2.y ∧ g1.y + ROW_TOLERANCE < g2.y)
        (groupGo cy cl l) := by
  induction l with
  | nil => intro cy cl _ _; simp [groupGo]
  | cons item rest ih =>
    intro cy cl hpw hge
    have hpw' : rest.Pairwise leY := (List.pairwise_cons.mp hpw).2
    have hcy : cy ≤ item.y := hge item (by simp)
    by_cases h : |item.y - cy| ≤ ROW_TOLERANCE
    · rw [groupGo]
      simp only [h, if_true]
      exact ih cy (cl ++ [item]) hpw' (fun z hz => hge z (by simp [hz]))
    · rw [groupGo]
      simp only [h, if_false]
      rw [List.chain'_cons']
      constructor
      · intro g hg
        obtain ⟨its, rest2, heq⟩ := groupGo_head rest item.y [item]
        rw [heq] at hg
        simp only [List.head?_cons, Option.mem_def, Option.some_inj] at hg
        subst hg
        have habs : ROW_TOLERANCE < item.y - cy := by
          rcases abs_cases (item.y - cy) with ⟨he, _⟩ | ⟨he, hneg⟩
          · rw [he] at h; exact lt_of_not_le h
          · nlinarith [lt_of_not_le h, hcy]
        have htol : (0 : ℚ) ≤ ROW_TOLERANCE := by norm_num [ROW_TOLERANCE]
        constructor
        · simp only []
          linarith
        · simp only []
          linarith
      · exact ih item.y [item] hpw'
          (fun z hz => (List.pairwise_cons.mp hpw).1 z hz)

end LayoutParser

namespace Claims

open LayoutParser OcrProcessor

/-- C10: in the output of `groupIntoLines`, consecutive lines' representative
y values are strictly increasing, and each successive representative exceeds
the previous one by more than `ROW_TOLERANCE`. -/
theorem c10_groupIntoLines_chain :
    ∀ items : List PositionedItem,
      List.Chain' (fun g1 g2 => g1.y < g2.y ∧ g1.y + ROW_TOLERANCE < g2.y)
        (groupIntoLines items) := by
  intro items
  have hs : List.Sorted leY (items.insertionSort leY) :=
    List.sorted_insertionSort leY items
  unfold groupIntoLines
  rcases h : items.insertionSort leY with _ | ⟨first, rest⟩
  · simp
  · rw [h] at hs
    have h1 := (List.pairwise_cons.mp hs).1
    have h2 := (List.pairwise_cons.mp hs).2
    exact groupGo_chain rest first.y [first] h2 (fun z hz => h1 z hz)

end Claims

namespace LayoutParser

theorem goP_cover (minCols : ℕ) (l : List LineGroup) :
    ∀ cb, tryExtractTableGoP minCols cb l ++
      l.drop (tryExtractTableGoP minCols cb l).length = l := by
  induction l with
  | nil => intro cb; rfl
  | cons line rest ih =>
    intro cb
    simp only [tryExtractTableGoP]
    split
    · simp
    · split
      · split
        · simp
        · simp only [List.cons_append, List.length_cons, List.drop_succ_cons,
            List.cons.injEq, true_and]
          exact ih _
      · split
        · simp
        · simp only [List.cons_append, List.length_cons, List.drop_succ_cons,
            List.cons.injEq, true_and]
          exact ih _

theorem tryExtractTableP_inv {minRows minCols : ℕ} {lines t : List LineGroup}
    (h : tryExtractTableP minRows minCols lines = some t) :
    t = tryExtractTableGoP minCols [] lines ∧ minRows ≤ t.length := by
  simp only [tryExtractTableP] at h
  split at h
  · exact ⟨(Option.some_inj.mp h).symm, by
      obtain rfl := Option.some_inj.mp h
      assumption⟩
  · exact absurd h (by simp)

theorem segmentAux_cover (minRows minCols : ℕ) (hmr : 1 ≤ minRows) :
    ∀ (fuel : ℕ) (lines : List LineGroup), lines.length ≤ fuel →
      (segmentAux minRows minCols fuel lines).flatMap Block.lines = lines := by
  intro fuel
  induction fuel with
  | zero =>
    intro lines h
    rw [List.length_eq_zero.mp (Nat.le_zero.mp h)]
    rfl
  | succ fuel ih =>
    intro lines hlen
    cases lines with
    | nil => rfl
    | cons line rest =>
      rw [segmentAux]
      cases htry : tryExtractTableP minRows minCols (line :: rest) with
      | none =>
        simp only [List.flatMap_cons, Block.lines, List.singleton_append]
        have := ih rest (by simpa using Nat.le_of_succ_le_succ hlen)
        rw [this]
      | some t =>
        obtain ⟨ht, hlen_t⟩ := tryExtractTableP_inv htry
        have hpos : 1 ≤ t.length := le_trans hmr hlen_t
        have hmax : max 1 t.length = t.length := by omega
        simp only [List.flatMap_cons, Block.lines, hmax]
        have hdrop : ((line :: rest).drop t.length).length ≤ fuel := by
          simp only [List.length_drop, List.length_cons]
          simp only [List.length_cons] at hlen
          omega
        rw [ih _ hdrop, ht, goP_cover]

end LayoutParser

namespace Claims

open LayoutParser OcrProcessor

/-- C2: for any input sequence of lines, the concatenation of the lines of
the blocks output by `segmentIntoBlocks`, in output order, equals the input
line sequence exactly — every line covered exactly once, order preserved. -/
theorem c2_segmentation_coverage :
    ∀ lines : List LineGroup,
      (segmentIntoBlocks lines).flatMap Block.lines = lines := by
  intro lines
  exact segmentAux_cover MIN_TABLE_ROWS MIN_TABLE_COLS
    (by norm_num [MIN_TABLE_ROWS]) lines.length lines le_rfl

end Claims

namespace LayoutParser

theorem COL_TOLERANCE_nonneg : (0 : ℚ) ≤ COL_TOLERANCE := by
  norm_num [COL_TOLERANCE]

theorem mergeColumnBuckets_eq {xs : List ℚ} {x : ℚ} {rest : List ℚ}
    (h : xs.insertionSort (· ≤ ·) = x :: rest) :
    mergeColumnBuckets xs = x :: mcbGo x rest := by
  unfold mergeColumnBuckets
  rw [h]

theorem mem_mcbGo {b : ℚ} : ∀ {l : List ℚ} {last : ℚ}, b ∈ mcbGo last l → b ∈ l := by
  intro l
  induction l with
  | nil => intro last h; simp [mcbGo] at h
  | cons x rest ih =>
    intro last h
    rw [mcbGo] at h
    split at h
    · rcases List.mem_cons.mp h with rfl | h
      · exact List.mem_cons_self _ _
      · exact List.mem_cons_of_mem _ (ih h)
    · exact List.mem_cons_of_mem _ (ih h)

theorem mem_mergeColumnBuckets {b : ℚ} {xs : List ℚ}
    (h : b ∈ mergeColumnBuckets xs) : b ∈ xs := by
  rcases he : xs.insertionSort (· ≤ ·) with _ | ⟨x, rest⟩
  · rw [mergeColumnBuckets, he] at h
    simp at h
  · rw [mergeColumnBuckets_eq he] at h
    have : b ∈ xs.insertionSort (· ≤ ·) := by
      rw [he]
      rcases List.mem_cons.mp h with rfl | h
      · exact List.mem_cons_self _ _
      · exact List.mem_cons_of_mem _ (mem_mcbGo h)
    exact (List.mem_insertionSort (· ≤ ·)).mp this

theorem chain_mcbGo :
    ∀ (l : List ℚ) (last : ℚ),
      List.Chain (fun a b => COL_TOLERANCE < b - a) last (mcbGo last l) := by
  intro l
  induction l with
  | nil => intro last; exact List.Chain.nil
  | cons x rest ih =>
    intro last
    rw [mcbGo]
    split
    · exact List.Chain.cons (by assumption) (ih x)
    · exact ih last

theorem cover_mcbGo :
    ∀ (l : List ℚ) (last : ℚ), l.Pairwise (· ≤ ·) → (∀ z ∈ l, last ≤ z) →
      ∀ z ∈ l, ∃ b, (b = last ∨ b ∈ mcbGo last l) ∧ b ≤ z ∧ z - b ≤ COL_TOLERANCE := by
  intro l
  induction l with
  | nil => intro last _ _ z hz; simp at hz
  | cons x rest ih =>
    intro last hpw hge z hz
    have hpw' : rest.Pairwise (· ≤ ·) := (List.pairwise_cons.mp hpw).2
    rw [mcbGo]
    by_cases hx : COL_TOLERANCE < x - last
    · simp only [hx, if_true]
      rcases List.mem_cons.mp hz with rfl | hz'
      · exact ⟨z, Or.inr (List.mem_cons_self _ _), le_refl z,
          by linarith [COL_TOLERANCE_nonneg]⟩
      · obtain ⟨b, hb, hble, hbtol⟩ :=
          ih x hpw' (fun w hw => (List.pairwise_cons.mp hpw).1 w hw) z hz'
        rcases hb with rfl | hb
        · exact ⟨b, Or.inr (List.mem_cons_self _ _), hble, hbtol⟩
        · exact ⟨b, Or.inr (List.mem_cons_of_mem _ hb), hble, hbtol⟩
    · simp only [hx, if_false]
      rcases List.mem_cons.mp hz with rfl | hz'
      · exact ⟨last, Or.inl rfl, hge z (List.mem_cons_self _ _), le_of_not_lt hx⟩
      · exact ih last hpw' (fun w hw => hge w (List.mem_cons_of_mem _ hw)) z hz'

theorem cover_mergeColumnBuckets {z : ℚ} {xs : List ℚ} (hz : z ∈ xs) :
    ∃ b ∈ mergeColumnBuckets xs, b ≤ z ∧ z - b ≤ COL_TOLERANCE := by
  have hz' : z ∈ xs.insertionSort (· ≤ ·) := (List.mem_insertionSort (· ≤ ·)).mpr hz
  have hs : List.Sorted (· ≤ ·) (xs.insertionSort (· ≤ ·)) :=
    List.sorted_insertionSort (· ≤ ·) xs
  rcases he : xs.insertionSort (· ≤ ·) with _ | ⟨x, rest⟩
  · rw [he] at hz'; simp at hz'
  · rw [he] at hz' hs
    rw [mergeColumnBuckets_eq he]
    rcases List.mem_cons.mp hz' with rfl | hz''
    · exact ⟨z, List.mem_cons_self _ _, le_refl z, by linarith [COL_TOLERANCE_nonneg]⟩
    · obtain ⟨b, hb, hble, hbtol⟩ :=
        cover_mcbGo rest x (List.pairwise_cons.mp hs).2
          (fun w hw => (List.pairwise_cons.mp hs).1 w hw) z hz''
      rcases hb with rfl | hb
      · exact ⟨b, List.mem_cons_self _ _, hble, hbtol⟩
      · exact ⟨b, List.mem_cons_of_mem _ hb, hble, hbtol⟩

theorem two_anchors_far {xs : List ℚ}
    (h : 2 ≤ (mergeColumnBuckets xs).length) :
    ∃ u ∈ xs, ∃ v ∈ xs, COL_TOLERANCE < v - u := by
  rcases hm : mergeColumnBuckets xs with _ | ⟨b0, tail⟩
  · rw [hm] at h; simp at h
  · rcases ht : tail with _ | ⟨b1, t2⟩
    · rw [hm, ht] at h; simp at h
    · subst ht
      have hb0 : b0 ∈ xs := mem_mergeColumnBuckets (by rw [hm]; exact List.mem_cons_self _ _)
      have hb1 : b1 ∈ xs := mem_mergeColumnBuckets
        (by rw [hm]; exact List.mem_cons_of_mem _ (List.mem_cons_self _ _))
      refine ⟨b0, hb0, b1, hb1, ?_⟩
      rcases he : xs.insertionSort (· ≤ ·) with _ | ⟨x, rest⟩
      · rw [mergeColumnBuckets, he] at hm; simp at hm
      · rw [mergeColumnBuckets_eq he] at hm
        have hx : x = b0 := (List.cons.injEq _ _ _ _ ▸ hm).1
        have hgo : mcbGo x rest = b1 :: t2 := (List.cons.injEq _ _ _ _ ▸ hm).2
        have hchain := chain_mcbGo rest x
        rw [hgo] at hchain
        have := (List.chain_cons.mp hchain).1
        rw [hx] at this
        exact this

theorem anchors_ge_two {u v : ℚ} {ys : List ℚ} (hu : u ∈ ys) (hv : v ∈ ys)
    (hgap : COL_TOLERANCE < v - u) : 2 ≤ (mergeColumnBuckets ys).length := by
  by_contra hlen
  push_neg at hlen
  obtain ⟨bu, hbu_mem, hbu_le, hbu_tol⟩ := cover_mergeColumnBuckets hu
  obtain ⟨bv, hbv_mem, hbv_le, hbv_tol⟩ := cover_mergeColumnBuckets hv
  have heq : bu = bv := by
    rcases hm : mergeColumnBuckets ys with _ | ⟨b, tail⟩
    · rw [hm] at hbu_mem; simp at hbu_mem
    · rw [hm] at hlen hbu_mem hbv_mem
      have htail : tail = [] := by
        simp only [List.length_cons] at hlen
        exact List.length_eq_zero.mp (by omega)
      rw [htail] at hbu_mem hbv_mem
      simp only [List.mem_singleton] at hbu_mem hbv_mem
      rw [hbu_mem, hbv_mem]
  rw [heq] at hbu_le
  linarith

end LayoutParser

namespace LayoutParser

theorem goP_items_ge {minCols : ℕ} {lg : LineGroup} :
    ∀ {l : List LineGroup} {cb : List ℚ},
      lg ∈ tryExtractTableGoP minCols cb l → minCols ≤ lg.items.length := by
  intro l
  induction l with
  | nil => intro cb h; simp [tryExtractTableGoP] at h
  | cons line rest ih =>
    intro cb h
    simp only [tryExtractTableGoP] at h
    split at h
    · simp at h
    · split at h
      · split at h
        · simp at h
        · rcases List.mem_cons.mp h with rfl | h'
          · omega
          · exact ih h'
      · split at h
        · simp at h
        · rcases List.mem_cons.mp h with rfl | h'
          · omega
          · exact ih h'

theorem goP_nil_head {minCols : ℕ} {l : List LineGroup} {lg : LineGroup}
    {t : List LineGroup} (h : tryExtractTableGoP minCols [] l = lg :: t) :
    minCols ≤ (mergeColumnBuckets (lg.items.map (fun it => it.x))).length := by
  cases l with
  | nil => simp [tryExtractTableGoP] at h
  | cons line rest =>
    simp only [tryExtractTableGoP] at h
    split at h
    · simp at h
    · simp only [List.isEmpty_nil, if_true] at h
      split at h
      · simp at h
      · have : lg = line := ((List.cons.injEq _ _ _ _).mp h).1.symm
        subst this
        omega

theorem segmentAux_table {minRows minCols : ℕ} (hmr : 1 ≤ minRows) :
    ∀ (fuel : ℕ) (lines t : List LineGroup), lines.length ≤ fuel →
      Block.table t ∈ segmentAux minRows minCols fuel lines →
      minRows ≤ t.length ∧ (∀ lg ∈ t, minCols ≤ lg.items.length) ∧
        ∃ lg₀ t', t = lg₀ :: t' ∧
          minCols ≤ (mergeColumnBuckets (lg₀.items.map (fun it => it.x))).length := by
  intro fuel
  induction fuel with
  | zero =>
    intro lines t _ hmem
    rw [segmentAux] at hmem
    simp at hmem
  | succ fuel ih =>
    intro lines t hlen hmem
    cases lines with
    | nil => rw [segmentAux] at hmem; simp at hmem
    | cons line rest =>
      rw [segmentAux] at hmem
      cases htry : tryExtractTableP minRows minCols (line :: rest) with
      | none =>
        rw [htry] at hmem
        rcases List.mem_cons.mp hmem with heq | hmem'
        · exact absurd heq (by simp)
        · exact ih rest t (by simpa using Nat.le_of_succ_le_succ hlen) hmem'
      | some t0 =>
        rw [htry] at hmem
        obtain ⟨ht0, hlen_t0⟩ := tryExtractTableP_inv htry
        rcases List.mem_cons.mp hmem with heq | hmem'
        · have : t = t0 := by
            injection heq
          subst this
          refine ⟨hlen_t0, fun lg hlg => goP_items_ge (ht0 ▸ hlg), ?_⟩
          rcases hc : t with _ | ⟨lg₀, t'⟩
          · rw [hc] at hlen_t0; simp at hlen_t0; omega
          · exact ⟨lg₀, t', rfl, goP_nil_head (by rw [← ht0, hc])⟩
        · have hdrop : ((line :: rest).drop (max 1 t0.length)).length ≤ fuel := by
            simp only [List.length_drop, List.length_cons]
            simp only [List.length_cons] at hlen
            omega
          exact ih _ t hdrop hmem'

theorem foldl_set_length (f : List String → PositionedItem → List String)
    (hf : ∀ acc item, (f acc item).length = acc.length) :
    ∀ (items : List PositionedItem) (acc : List String),
      (items.foldl f acc).length = acc.length := by
  intro items
  induction items with
  | nil => intro acc; rfl
  | cons item rest ih =>
    intro acc
    rw [List.foldl_cons, ih, hf]

theorem fillRow_length (cb : List ℚ) (n : ℕ) (items : List PositionedItem) :
    (fillRow cb n items).length = n := by
  unfold fillRow
  rw [foldl_set_length _ (fun acc item => List.length_set acc _ _) items,
    List.length_replicate]

end LayoutParser

namespace Claims

open LayoutParser OcrProcessor

/-- C1: every table element emitted by `buildDocElements` has at least
`MIN_TABLE_COLS` columns and `MIN_TABLE_ROWS` rows, and every row of its grid
has length exactly `colCount`, even though `tableBlockToElement` recomputes
the column buckets from the union of all x-values of the block. -/
theorem c1_table_shape :
    ∀ (items : List RawItem) (H : ℚ) (rows : List (List String)) (cc : ℕ),
      DocElement.table rows cc ∈ buildDocElements items H →
      MIN_TABLE_COLS ≤ cc ∧ MIN_TABLE_ROWS ≤ rows.length ∧
        ∀ r ∈ rows, r.length = cc := by
  intro items H rows cc hmem
  simp only [buildDocElements] at hmem
  split at hmem
  · simp at hmem
  · simp only [List.mem_flatMap] at hmem
    obtain ⟨block, hblock, hel⟩ := hmem
    cases block with
    | para l =>
      simp only [paraBlockToElements, List.mem_map] at hel
      obtain ⟨line, _, hline⟩ := hel
      exact absurd hline (by simp)
    | table l =>
      simp only [List.mem_singleton, tableBlockToElement] at hel
      obtain ⟨hrows, hcc⟩ := (DocElement.table.injEq _ _ _ _).mp hel.symm
      have hseg := @segmentAux_table MIN_TABLE_ROWS MIN_TABLE_COLS
        (by norm_num [MIN_TABLE_ROWS]) _ _ l le_rfl hblock
      obtain ⟨hrowsge, hitems, lg₀, t', hl, hhead⟩ := hseg
      subst hrows
      subst hcc
      refine ⟨?_, by simpa using hrowsge, ?_⟩
      · obtain ⟨u, hu, v, hv, hgap⟩ := two_anchors_far hhead
        have hmemall : ∀ w, w ∈ lg₀.items.map (fun it => it.x) →
            w ∈ l.flatMap (fun lx => lx.items.map (fun it => it.x)) := by
          intro w hw
          rw [List.mem_flatMap]
          exact ⟨lg₀, by rw [hl]; exact List.mem_cons_self _ _, hw⟩
        exact anchors_ge_two (hmemall u hu) (hmemall v hv) hgap
      · intro r hr
        rw [List.mem_map] at hr
        obtain ⟨line, _, hline⟩ := hr
        rw [← hline, fillRow_length]

/-- C1 witness: the specification's S1 sample yields one table whose shape is
certified by `c1_table_shape`. -/
theorem c1_witness :
    MIN_TABLE_COLS ≤ 2 ∧ MIN_TABLE_ROWS ≤ ([["A", "B"], ["C", "D"]] : List (List String)).length ∧
      ∀ r ∈ ([["A", "B"], ["C", "D"]] : List (List String)), r.length = 2 :=
  c1_table_shape sampleTableItems 100 [["A", "B"], ["C", "D"]] 2
    (by with_unfolding_all decide)

end Claims

namespace LayoutParser

theorem goP_mono {mc mc' : ℕ} (hmc : mc ≤ mc') :
    ∀ (l : List LineGroup) (cb : List ℚ),
      ∃ r, tryExtractTableGoP mc cb l = tryExtractTableGoP mc' cb l ++ r := by
  intro l
  induction l with
  | nil => intro cb; exact ⟨[], rfl⟩
  | cons line rest ih =>
    intro cb
    by_cases h1' : line.items.length < mc'
    · refine ⟨tryExtractTableGoP mc cb (line :: rest), ?_⟩
      conv_rhs => rw [tryExtractTableGoP]
      simp [h1']
    · have h1 : ¬ line.items.length < mc := by omega
      by_cases hcb : cb.isEmpty
      · by_cases h2' :
            (mergeColumnBuckets (line.items.map (fun it => it.x))).length < mc'
        · refine ⟨tryExtractTableGoP mc cb (line :: rest), ?_⟩
          conv_rhs => rw [tryExtractTableGoP]
          simp [h1', hcb, h2']
        · have h2 : ¬ (mergeColumnBuckets (line.items.map (fun it => it.x))).length < mc := by
            omega
          obtain ⟨r, hr⟩ := ih (mergeColumnBuckets (line.items.map (fun it => it.x)))
          refine ⟨r, ?_⟩
          simp only [tryExtractTableGoP, h1, h1', hcb, if_true, if_false, ite_true,
            ite_false, h2, h2']
          rw [List.cons_append, hr]
      · by_cases h3' :
            ((line.items.map (fun it => it.x)).filter
              (fun x => cb.any (fun b => decide (|x - b| ≤ COL_TOLERANCE)))).length < mc'
        · refine ⟨tryExtractTableGoP mc cb (line :: rest), ?_⟩
          conv_rhs => rw [tryExtractTableGoP]
          simp [h1', hcb, h3']
        · have h3 : ¬ ((line.items.map (fun it => it.x)).filter
              (fun x => cb.any (fun b => decide (|x - b| ≤ COL_TOLERANCE)))).length < mc := by
            omega
          obtain ⟨r, hr⟩ :=
            ih (mergeColumnBuckets (cb ++ line.items.map (fun it => it.x)))
          refine ⟨r, ?_⟩
          simp only [tryExtractTableGoP, h1, h1', hcb, if_true, if_false, ite_true,
            ite_false, h3, h3', Bool.false_eq_true, List.cons_append]
          rw [hr]

end LayoutParser

namespace Claims

open LayoutParser OcrProcessor

/-- C6 counterexample: raising `MIN_TABLE_COLS` from 2 to 3 (all else fixed)
turns `probeLine2` — a Paragraph line under the default thresholds — into a
line of an emitted Table, because the paragraph line `probeLine0` stops
seeding the greedy extraction and the table start shifts to `probeLine1`,
whose unmixed buckets accept `probeLine2`. -/
theorem c6_counterexample :
    Block.para [probeLine2] ∈
        segmentIntoBlocksP MIN_TABLE_ROWS MIN_TABLE_COLS probeLines ∧
      Block.table [probeLine1, probeLine2] ∈
        segmentIntoBlocksP MIN_TABLE_ROWS (MIN_TABLE_COLS + 1) probeLines :=
  ⟨by with_unfolding_all decide, by with_unfolding_all decide⟩

/-- C6 amended: at a fixed starting position, the run of lines accepted by
table extraction under raised `MIN_TABLE_ROWS` or `MIN_TABLE_COLS` is an
initial segment of the run accepted under the lower thresholds — raising a
threshold never accepts a line the lower thresholds rejected at that start.
The original global claim fails because full segmentation can shift table
start positions (`c6_counterexample`). -/
theorem c6_amended_local_monotone :
    ∀ (minRows minRows' minCols minCols' : ℕ) (lines t' : List LineGroup),
      minRows ≤ minRows' → minCols ≤ minCols' →
      tryExtractTableP minRows' minCols' lines = some t' →
      ∃ t r, tryExtractTableP minRows minCols lines = some t ∧ t = t' ++ r := by
  intro mr mr' mc mc' lines t' hmr hmc h
  obtain ⟨ht', hlen'⟩ := tryExtractTableP_inv h
  obtain ⟨r, hr⟩ := goP_mono hmc lines []
  have hlen : mr ≤ (tryExtractTableGoP mc [] lines).length := by
    rw [hr, List.length_append, ← ht']
    omega
  refine ⟨tryExtractTableGoP mc [] lines, r, ?_, by rw [hr, ht']⟩
  simp only [tryExtractTableP, hlen, if_true, ite_true]

/-- C6 witness: a 3-row aligned grid extracted at thresholds (3, 2) is an
initial segment of the extraction at the default thresholds (2, 2). -/
theorem c6_witness :
    ∃ t r, tryExtractTableP MIN_TABLE_ROWS MIN_TABLE_COLS gridLines = some t ∧
      t = gridLines ++ r :=
  c6_amended_local_monotone MIN_TABLE_ROWS (MIN_TABLE_ROWS + 1) MIN_TABLE_COLS
    MIN_TABLE_COLS gridLines gridLines (by omega) le_rfl
    (by with_unfolding_all decide)

end Claims

namespace OcrProcessor

open LayoutParser

theorem countP_pageElements (p : PageData) :
    (pageElements p).countP (fun el => decide (el = DocElement.pageBreak)) = 0 := by
  rw [List.countP_eq_zero]
  intro el hel
  simpa using pageElements_ne_pageBreak p el hel

theorem assembleGo_count (l : List PageData) :
    (assembleGo l).countP (fun el => decide (el = DocElement.pageBreak)) = l.length := by
  induction l with
  | nil => rfl
  | cons p rest ih =>
    rw [assembleGo, List.cons_append, List.countP_cons_of_pos _ _ (by simp),
      List.countP_append, countP_pageElements, ih, List.length_cons]
    omega

theorem assembleGo_ne_nil (p : PageData) (rest : List PageData) :
    assembleGo (p :: rest) ≠ [] := by
  rw [assembleGo]
  simp

theorem assembleGo_getLast :
    ∀ (l : List PageData), l ≠ [] → (∀ p ∈ l, pageElements p ≠ []) →
      ∃ el, (assembleGo l).getLast? = some el ∧ el ≠ DocElement.pageBreak := by
  intro l
  induction l with
  | nil => intro h; exact absurd rfl h
  | cons p rest ih =>
    intro _ hall
    cases rest with
    | nil =>
      have hp : pageElements p ≠ [] := hall p (List.mem_cons_self _ _)
      have hsome : (pageElements p).getLast?.isSome := List.getLast?_isSome.mpr hp
      obtain ⟨el, hel⟩ := Option.isSome_iff_exists.mp hsome
      refine ⟨el, ?_, pageElements_ne_pageBreak p el (List.mem_of_getLast?_eq_some hel)⟩
      rw [assembleGo, assembleGo, List.append_nil,
        show DocElement.pageBreak :: pageElements p = [DocElement.pageBreak] ++ pageElements p from rfl,
        List.getLast?_append, hel]
      rfl
    | cons q rest2 =>
      obtain ⟨el, hel, hne⟩ := ih (by simp)
        (fun w hw => hall w (List.mem_cons_of_mem _ hw))
      refine ⟨el, ?_, hne⟩
      rw [assembleGo, List.getLast?_append, hel]
      rfl

end OcrProcessor

namespace Claims

open LayoutParser OcrProcessor

/-- C3 counterexample: the claim asserts that for every combination of page
content — including a scanned page whose OCR text is empty — no page break
sits at index 0 or at the last index; but two scanned pages with empty OCR
text assemble to the single element `[pageBreak]`, which is both first and
last. -/
theorem c3_counterexample :
    samplePagesEmptyOcr.length = 2 ∧
      assemblePages samplePagesEmptyOcr = [DocElement.pageBreak] ∧
      (assemblePages samplePagesEmptyOcr).head? = some DocElement.pageBreak ∧
      (assemblePages samplePagesEmptyOcr).getLast? = some DocElement.pageBreak :=
  ⟨rfl, by with_unfolding_all decide, by with_unfolding_all decide,
    by with_unfolding_all decide⟩

/-- C3 amended: the assembly of N pages always contains exactly N − 1 page
breaks; and provided every page contributes at least one element (which a
scanned page with empty or whitespace-only OCR text does not), no page break
is at index 0 or at the last index. -/
theorem c3_pageBreak_placement :
    ∀ pages : List PageData,
      (assemblePages pages).countP (fun el => decide (el = DocElement.pageBreak)) =
          pages.length - 1 ∧
      (pages ≠ [] → (∀ p ∈ pages, pageElements p ≠ []) →
        (∀ el, (assemblePages pages).head? = some el → el ≠ DocElement.pageBreak) ∧
        (∀ el, (assemblePages pages).getLast? = some el → el ≠ DocElement.pageBreak)) := by
  intro pages
  constructor
  · cases pages with
    | nil => rfl
    | cons p rest =>
      rw [assemblePages, List.countP_append, countP_pageElements, assembleGo_count,
        List.length_cons]
      omega
  · intro hne hall
    cases pages with
    | nil => exact absurd rfl hne
    | cons p rest =>
      have hp : pageElements p ≠ [] := hall p (List.mem_cons_self _ _)
      constructor
      · intro el hel
        rw [assemblePages, List.head?_append] at hel
        cases hpel : (pageElements p).head? with
        | none => exact absurd (List.head?_eq_none_iff.mp hpel) hp
        | some el0 =>
          rw [hpel] at hel
          have : el0 = el := by simpa using hel
          subst this
          exact pageElements_ne_pageBreak p el0 (List.mem_of_mem_head? hpel)
      · intro el hel
        rw [assemblePages, List.getLast?_append] at hel
        cases rest with
        | nil =>
          rw [show assembleGo [] = [] from rfl] at hel
          simp only [List.getLast?_nil, Option.none_or] at hel
          exact pageElements_ne_pageBreak p el (List.mem_of_getLast?_eq_some hel)
        | cons q rest2 =>
          obtain ⟨el2, hel2, hne2⟩ := assembleGo_getLast (q :: rest2) (by simp)
            (fun w hw => hall w (List.mem_cons_of_mem _ hw))
          rw [hel2] at hel
          have : el2 = el := by simpa using hel
          subst this
          exact hne2

/-- C3 witness: two scanned pages with non-empty OCR text get exactly one
page break, which is neither first nor last. -/
theorem c3_witness :
    ((assemblePages samplePagesAB).countP
        (fun el => decide (el = DocElement.pageBreak)) =
      samplePagesAB.length - 1) ∧
    (∀ el, (assemblePages samplePagesAB).head? = some el →
      el ≠ DocElement.pageBreak) ∧
    (∀ el, (assemblePages samplePagesAB).getLast? = some el →
      el ≠ DocElement.pageBreak) := by
  have h := c3_pageBreak_placement samplePagesAB
  have h2 := h.2 (by simp [samplePagesAB]) (by with_unfolding_all decide)
  exact ⟨h.1, h2.1, h2.2⟩

end Claims
